import Mathlib

/-!
Verification development for the MTGC deck-building application.

The Python data model is embedded shallowly:
* a Python `dict[str, int]` (which preserves insertion order, updates a
  present key in place and appends a fresh key at the end) is an
  association list `List (String × ℤ)`;
* machine integers are `ℤ` (Python ints are unbounded);
* `random.sample` and the per-iteration randomness of the match simulator
  are oracles passed as explicit function arguments;
* the Scryfall catalog responses consumed by the auto-builder are explicit
  list arguments.
-/

/-- Lookup in a Python-style dict: value of the first (only) entry whose key
matches.  Mirrors `d.get(k)` / `k in d`. -/
def dictGet? {α : Type} (l : List (String × α)) (k : String) : Option α :=
  (l.find? (fun p => p.1 == k)).map (fun p => p.2)

/-- `d.get(k, dflt)`. -/
def dictGetD {α : Type} (l : List (String × α)) (k : String) (dflt : α) : α :=
  (dictGet? l k).getD dflt

/-- `d[k] = v`: update in place when the key is present, append otherwise. -/
def dictSet {α : Type} : List (String × α) → String → α → List (String × α)
  | [], k, v => [(k, v)]
  | (k', v') :: t, k, v =>
      if k' == k then (k', v) :: t else (k', v') :: dictSet t k v

/-- `del d[k]`. -/
def dictErase {α : Type} : List (String × α) → String → List (String × α)
  | [], _ => []
  | (k', v') :: t, k => if k' == k then t else (k', v') :: dictErase t k

/-- The subset of a Scryfall card used by the auto-builder (src/models.py
`Card`): its name and color identity. -/
structure CardM where
  name : String
  colors : List String
deriving Repr, DecidableEq

/-- src/models.py `Deck`: a deck name together with a card-name → quantity
dict. -/
structure Deck where
  name : String
  cards : List (String × ℤ)
deriving Repr, DecidableEq

namespace Deck

/-- src/models.py `Deck.add_card`:
`self.cards[card_name] = self.cards.get(card_name, 0) + qty`. -/
def add_card (d : Deck) (card_name : String) (qty : ℤ) : Deck :=
  { d with cards := dictSet d.cards card_name (dictGetD d.cards card_name 0 + qty) }

/-- src/models.py `Deck.remove_card`: when the card is present subtract,
keeping the entry only when the new quantity is strictly positive. -/
def remove_card (d : Deck) (card_name : String) (qty : ℤ) : Deck :=
  match dictGet? d.cards card_name with
  | none => d
  | some old =>
      if 0 < old - qty then
        { d with cards := dictSet d.cards card_name (old - qty) }
      else
        { d with cards := dictErase d.cards card_name }

/-- src/models.py `Deck.total_cards`: `sum(self.cards.values())`. -/
def total_cards (d : Deck) : ℤ :=
  (d.cards.map (fun p => p.2)).sum

end Deck

/-- The Deck invariant claimed by the spec: every stored quantity is ≥ 1. -/
def DeckInv (d : Deck) : Prop :=
  ∀ p ∈ d.cards, 1 ≤ p.2

instance (d : Deck) : Decidable (DeckInv d) := by
  unfold DeckInv; infer_instance

/-- src/battle_simulator.py `BASIC_LANDS`. -/
def BASIC_LANDS : List String :=
  ["Plains", "Island", "Swamp", "Mountain", "Forest"]

/-- src/battle_simulator.py `_deck_to_list`: flatten the quantity dict into a
list of card names (`list.extend([name] * qty)`; a non-positive quantity
contributes nothing, as in Python). -/
def deck_to_list (d : Deck) : List String :=
  (d.cards.map (fun p => List.replicate p.2.toNat p.1)).flatten

/-- Number of drawn names that belong to the basic-land set:
`sum(1 for card in hand if card in BASIC_LANDS)`. -/
def landCount (hand : List String) : ℕ :=
  (hand.filter (fun c => BASIC_LANDS.contains c)).length

/-- src/battle_simulator.py `simulate_hand`.  `random.sample` is modelled by
the oracle `draw`, which receives the flattened deck list and the hand size
and produces the drawn hand. -/
def simulate_hand (d : Deck) (hand_size : ℕ)
    (draw : List String → ℕ → List String) : Bool :=
  let deck_list := deck_to_list d
  if deck_list.length < hand_size then false
  else
    let hand := draw deck_list hand_size
    decide (2 ≤ landCount hand ∧ landCount hand ≤ 5)

/-- One iteration of src/battle_simulator.py `simulate_match`: exactly one of
the three counters is incremented. -/
def matchStep (d1 d2 : Deck)
    (draws1 draws2 : ℕ → List String → ℕ → List String)
    (acc : ℕ × ℕ × ℕ) (i : ℕ) : ℕ × ℕ × ℕ :=
  let result1 := simulate_hand d1 7 (draws1 i)
  let result2 := simulate_hand d2 7 (draws2 i)
  if result1 && !result2 then (acc.1 + 1, acc.2.1, acc.2.2)
  else if result2 && !result1 then (acc.1, acc.2.1 + 1, acc.2.2)
  else (acc.1, acc.2.1, acc.2.2 + 1)

/-- src/battle_simulator.py `simulate_match`: fold `matchStep` over the
iteration indices `0, …, iterations-1`.  The two oracle families supply each
iteration's `random.sample` results. -/
def simulate_match (d1 d2 : Deck)
    (draws1 draws2 : ℕ → List String → ℕ → List String)
    (iterations : ℕ) : ℕ × ℕ × ℕ :=
  (List.range iterations).foldl (matchStep d1 d2 draws1 draws2) (0, 0, 0)

/-- The dict written by src/models.py `Deck.to_dict`
(`{"name": ..., "cards": ...}`). -/
structure DeckDict where
  name : String
  cards : List (String × ℤ)
deriving Repr, DecidableEq

/-- src/models.py `Deck.to_dict`. -/
def Deck.to_dict (d : Deck) : DeckDict :=
  ⟨d.name, d.cards⟩

/-- src/models.py `Deck.from_dict`. -/
def Deck.from_dict (data : DeckDict) : Deck :=
  ⟨data.name, data.cards⟩

/-- The `data/decks` directory: one JSON file per deck, keyed by the file
name `<deck name>.json`. -/
def DeckStore : Type := List (String × DeckDict)

/-- src/deck_manager.py `save_deck`: write `deck.to_dict()` to
`<deck.name>.json`, overwriting any previous file of that name. -/
def save_deck (store : DeckStore) (d : Deck) : DeckStore :=
  dictSet store d.name (Deck.to_dict d)

/-- src/deck_manager.py `load_deck`: read `<name>.json` when it exists and
rebuild the deck with `Deck.from_dict`. -/
def load_deck (store : DeckStore) (name : String) : Option Deck :=
  (dictGet? store name).map Deck.from_dict

/-- src/main.py `_on_smart_build`: the color-to-basic-land map
`{"W":"Plains","U":"Island","B":"Swamp","R":"Mountain","G":"Forest"}`.
The Python dict lookup `basic_map[col]` is only ever reached with
`col ∈ {W,U,B,R,G}` (the color parser filters everything else), so the
catch-all branch is unreachable in the modelled code paths. -/
def basic_map (col : String) : String :=
  if col = "W" then "Plains"
  else if col = "U" then "Island"
  else if col = "B" then "Swamp"
  else if col = "R" then "Mountain"
  else "Forest"

/-- src/main.py `_on_smart_build` land loop:
`for idx, col in enumerate(colors): qty = per_color + (1 if idx < extra else 0);
deck.add_card(basic_map[col], qty)`. -/
def landLoop (per extra : ℕ) : Deck → List String → ℕ → Deck
  | deck, [], _ => deck
  | deck, col :: rest, idx =>
      landLoop per extra
        (deck.add_card (basic_map col) ((per + if idx < extra then 1 else 0 : ℕ) : ℤ))
        rest (idx + 1)

/-- The land-allocation phase of src/main.py `_on_smart_build`: 24 lands
split as evenly as possible over the chosen colors, earlier colors getting
the remainder. -/
def landPhase (colors : List String) (deck : Deck) : Deck :=
  landLoop (24 / colors.length) (24 % colors.length) deck colors 0

/-- `set(c.colors).issubset(set(colors))`. -/
def colorsSubset (c : CardM) (colors : List String) : Bool :=
  c.colors.all (fun x => colors.contains x)

/-- src/main.py `_on_smart_build` creature/noncreature acquisition loop:
add each candidate once, skipping names already in `used`, stopping at the
target count.  Returns the deck, the used-name set and the added counter. -/
def acquireLoop (target : ℕ) :
    Deck → List String → ℕ → List CardM → Deck × List String × ℕ
  | deck, used, added, [] => (deck, used, added)
  | deck, used, added, c :: rest =>
      if target ≤ added then (deck, used, added)
      else if used.contains c.name then acquireLoop target deck used added rest
      else acquireLoop target (deck.add_card c.name 1) (c.name :: used) (added + 1) rest

/-- src/main.py `_on_smart_build` shortfall filler loop: add unused filler
cards one at a time, stopping when `fill_needed` hits 0 or the list runs
out. -/
def fillerLoop : Deck → List String → ℕ → List CardM → Deck
  | deck, _, _, [] => deck
  | deck, used, fill_needed, c :: rest =>
      if used.contains c.name then fillerLoop deck used fill_needed rest
      else
        let deck' := deck.add_card c.name 1
        let fill' := fill_needed - 1
        if fill' = 0 then deck' else fillerLoop deck' (c.name :: used) fill' rest

/-- Python `str.capitalize()`: first character uppercased, the rest
lowercased. -/
def pyCapitalize (s : String) : String :=
  match s.toList with
  | [] => ""
  | a :: t => String.mk (a.toUpper :: t.map Char.toLower)

/-- src/main.py `_on_smart_build`:
`deck_name = f"{archetype.capitalize()} {combo} Auto"` with
`combo = "/".join(colors)`. -/
def deckName (archetype : String) (colors : List String) : String :=
  pyCapitalize archetype ++ " " ++ String.intercalate "/" colors ++ " Auto"

/-- src/main.py `_on_smart_build` archetype targets:
aggro 24/12, midrange 18/18, otherwise (control) 12/24. -/
def archTargets (archetype : String) : ℕ × ℕ :=
  if archetype = "aggro" then (24, 12)
  else if archetype = "midrange" then (18, 18)
  else (12, 24)

/-- The deck-construction core of src/main.py `_on_smart_build`, from the
already-validated colors and archetype and the three catalog responses
(creature query, instant/sorcery query, filler query).  Follows the source
line by line: lands, then creatures, then noncreatures sharing the same
used-name set (which starts empty *after* the lands were added), then the
shortfall filler. -/
def smartBuild (colors : List String) (archetype : String)
    (creaturesRaw noncreRaw filler : List CardM) : Deck :=
  let deck0 : Deck := ⟨deckName archetype colors, []⟩
  let targets := archTargets archetype
  let deck1 := landPhase colors deck0
  let creatures := creaturesRaw.filter (fun c => colorsSubset c colors)
  let step2 := acquireLoop targets.1 deck1 [] 0 creatures
  let noncre := noncreRaw.filter (fun c => colorsSubset c colors)
  let step3 := acquireLoop targets.2 step2.1 step2.2.1 0 noncre
  let deck3 := step3.1
  let total := deck3.total_cards
  if total < 60 then fillerLoop deck3 step3.2.1 (60 - total).toNat filler
  else deck3

/-- src/battle_simulator.py match-history record
`{"deck": ..., "opponent": ..., "result": ...}`. -/
structure MatchRecord where
  deck : String
  opponent : String
  result : String
deriving Repr, DecidableEq

/-- src/main.py `_on_smart_build`: `archetypes = ["Aggro", "Midrange", "Control"]`. -/
def archetypes : List String := ["Aggro", "Midrange", "Control"]

/-- Linear substring test on character lists, modelling Python's
`combo in dn`. -/
def containsSub (pat : List Char) : List Char → Bool
  | [] => pat.isEmpty
  | a :: t => pat.isPrefixOf (a :: t) || containsSub pat t

/-- `combo in dn` for strings. -/
def strContains (s pat : String) : Bool :=
  containsSub pat.toList s.toList

/-- src/main.py `_on_smart_build`: the record filter
`dn.startswith(arch) and combo in dn`. -/
def recMatches (combo arch : String) (r : MatchRecord) : Bool :=
  arch.isPrefixOf r.deck && strContains r.deck combo

/-- src/main.py `_on_smart_build` inner history loop: `(total, wins)` for one
archetype — `total` counts matching W/L records, `wins` the matching W
records. -/
def archStats (history : List MatchRecord) (combo arch : String) : ℕ × ℕ :=
  history.foldl
    (fun acc r =>
      if recMatches combo arch r then
        if r.result = "W" then (acc.1 + 1, acc.2 + 1)
        else if r.result = "L" then (acc.1 + 1, acc.2)
        else acc
      else acc)
    (0, 0)

/-- The win rate the recommender computes for one archetype, when it has any
matching W/L record (`rate = wins / total`); Python's float division is
modelled in ℚ. -/
def rateOf (history : List MatchRecord) (combo arch : String) : Option ℚ :=
  let s := archStats history combo arch
  if 0 < s.1 then some ((s.2 : ℚ) / (s.1 : ℚ)) else none

/-- src/main.py `_on_smart_build` archetype-recommendation loop:
`best_rate` starts at −1.0 and `best_arch` at None; an archetype with
matching records replaces the incumbent exactly when `rate > best_rate`. -/
def recommend (history : List MatchRecord) (combo : String) : Option String :=
  (archetypes.foldl
    (fun (best : Option String × ℚ) arch =>
      let s := archStats history combo arch
      if 0 < s.1 then
        let rate : ℚ := (s.2 : ℚ) / (s.1 : ℚ)
        if best.2 < rate then (some arch, rate) else best
      else best)
    (none, -1)).1

/-- Wins of an archetype per the spec's wording: matching records whose
result is "W". -/
def specWins (history : List MatchRecord) (combo arch : String) : ℕ :=
  (history.filter (fun r => recMatches combo arch r && (r.result == "W"))).length

/-- Losses of an archetype per the spec's wording: matching records whose
result is "L". -/
def specLosses (history : List MatchRecord) (combo arch : String) : ℕ :=
  (history.filter (fun r => recMatches combo arch r && (r.result == "L"))).length

/-- The spec's score for an archetype: `wins / (wins + losses)` when the
archetype has any matching win or loss. -/
def specRate (history : List MatchRecord) (combo arch : String) : Option ℚ :=
  let w := specWins history combo arch
  let l := specLosses history combo arch
  if 0 < w + l then some ((w : ℚ) / ((w + l : ℕ) : ℚ)) else none

/-- The recommender as the spec words it: score each archetype in the fixed
order Aggro, Midrange, Control by `wins / (wins + losses)` and return the
first archetype (in that order) whose rate is greatest. -/
def specRecommend (history : List MatchRecord) (combo : String) : Option String :=
  let rated := archetypes.filterMap
    (fun a => (specRate history combo a).map (fun r => (a, r)))
  (rated.find? (fun p => rated.all (fun q => decide (q.2 ≤ p.2)))).map (fun p => p.1)

theorem dictSet_mem {α : Type} (l : List (String × α)) (k : String) (v : α) :
    ∀ p ∈ dictSet l k v, p.2 = v ∨ p ∈ l := by
  induction l with
  | nil => intro p hp; simp [dictSet] at hp; simp [hp]
  | cons q t ih =>
      intro p hp
      obtain ⟨k', v'⟩ := q
      simp only [dictSet] at hp
      by_cases h : (k' == k) = true
      · rw [if_pos h] at hp
        rcases List.mem_cons.mp hp with h1 | h1
        · left; rw [h1]
        · right; exact List.mem_cons_of_mem _ h1
      · rw [if_neg h] at hp
        rcases List.mem_cons.mp hp with h1 | h1
        · right; rw [h1]; exact List.mem_cons_self _ _
        · rcases ih p h1 with h2 | h2
          · left; exact h2
          · right; exact List.mem_cons_of_mem _ h2

theorem dictErase_mem {α : Type} (l : List (String × α)) (k : String) :
    ∀ p ∈ dictErase l k, p ∈ l := by
  induction l with
  | nil => intro p hp; simp [dictErase] at hp
  | cons q t ih =>
      intro p hp
      obtain ⟨k', v'⟩ := q
      simp only [dictErase] at hp
      by_cases h : (k' == k) = true
      · rw [if_pos h] at hp; exact List.mem_cons_of_mem _ hp
      · rw [if_neg h] at hp
        rcases List.mem_cons.mp hp with h1 | h1
        · rw [h1]; exact List.mem_cons_self _ _
        · exact List.mem_cons_of_mem _ (ih p h1)

theorem dictGet?_mem {α : Type} {l : List (String × α)} {k : String} {v : α}
    (h : dictGet? l k = some v) : ∃ p ∈ l, p.2 = v := by
  unfold dictGet? at h
  rcases hf : l.find? (fun p => p.1 == k) with _ | p
  · rw [hf] at h; simp at h
  · rw [hf] at h
    simp at h
    exact ⟨p, List.mem_of_find?_eq_some hf, h⟩

theorem dictGet?_set_self {α : Type} (l : List (String × α)) (k : String) (v : α) :
    dictGet? (dictSet l k v) k = some v := by
  induction l with
  | nil => simp [dictSet, dictGet?, List.find?]
  | cons q t ih =>
      obtain ⟨k', v'⟩ := q
      simp only [dictSet]
      by_cases h : (k' == k) = true
      · rw [if_pos h]; simp [dictGet?, List.find?, h]
      · rw [if_neg h]
        simp only [dictGet?, List.find?] at ih ⊢
        simp only [h, Bool.false_eq_true, if_false]
        exact ih

/-- CORRECTED C8.  The original claim quantifies over *every* quantity
argument: it fails, because `add_card` with quantity 0 on an absent name
stores a zero entry.  This is the concrete refutation: the empty deck
satisfies the invariant, yet `add_card "X" 0` yields a deck that stores the
quantity 0 and so violates it. -/
theorem add_card_zero_qty_counterexample :
    DeckInv ⟨"D", []⟩ ∧ ¬ DeckInv (Deck.add_card ⟨"D", []⟩ "X" 0) := by
  constructor
  · intro p hp; simp at hp
  · intro h
    have := h ("X", 0) (by simp [Deck.add_card, dictSet, dictGetD, dictGet?, List.find?])
    simp at this

/-- C8 (amended): the Deck invariant (all stored quantities ≥ 1) is
preserved by `add_card` for every *positive* quantity argument, and by
`remove_card` for every quantity argument whatsoever. -/
theorem deck_mutations_preserve_inv :
    (∀ (d : Deck) (n : String) (q : ℤ), DeckInv d → 1 ≤ q →
        DeckInv (d.add_card n q)) ∧
    (∀ (d : Deck) (n : String) (q : ℤ), DeckInv d →
        DeckInv (d.remove_card n q)) := by
  constructor
  · intro d n q hinv hq p hp
    simp only [Deck.add_card] at hp
    rcases dictSet_mem _ _ _ p hp with h | h
    · rw [h]
      have hge : (0 : ℤ) ≤ dictGetD d.cards n 0 := by
        unfold dictGetD
        rcases hg : dictGet? d.cards n with _ | v
        · simp
        · obtain ⟨p', hp', hv⟩ := dictGet?_mem hg
          simp only [Option.getD_some]
          have := hinv p' hp'
          omega
      omega
    · exact hinv p h
  · intro d n q hinv p hp
    unfold Deck.remove_card at hp
    split at hp
    · exact hinv p hp
    · rename_i old hg
      split at hp
      · rename_i hlt
        simp only at hp
        rcases dictSet_mem _ _ _ p hp with h | h
        · rw [h]; omega
        · exact hinv p h
      · simp only at hp
        exact hinv p (dictErase_mem _ _ p hp)

/-- Witness for `deck_mutations_preserve_inv` at concrete decks. -/
theorem deck_mutations_preserve_inv_witness :
    DeckInv (Deck.add_card ⟨"D", []⟩ "Island" 4) ∧
    DeckInv (Deck.remove_card ⟨"D", [("Island", 4)]⟩ "Island" 2) :=
  ⟨deck_mutations_preserve_inv.1 ⟨"D", []⟩ "Island" 4 (by decide) (by decide),
   deck_mutations_preserve_inv.2 ⟨"D", [("Island", 4)]⟩ "Island" 2 (by decide)⟩

/-- C9: saving a deck and loading it back by its name returns a deck with
the same name and the same card multiset (in fact the identical `Deck`
value), for every prior state of the deck store. -/
theorem save_load_roundtrip (store : DeckStore) (d : Deck) :
    load_deck (save_deck store d) d.name = some d := by
  unfold load_deck save_deck
  rw [dictGet?_set_self]
  obtain ⟨n, cs⟩ := d
  rfl

/-- C3: whenever the deck has at least `hand_size` card units, the hand
simulator is keepable exactly when the drawn hand's basic-land count lies in
the inclusive range [2, 5] — for every sampling oracle. -/
theorem simulate_hand_keepable_iff (d : Deck) (hand_size : ℕ)
    (draw : List String → ℕ → List String)
    (h : hand_size ≤ (deck_to_list d).length) :
    simulate_hand d hand_size draw = true ↔
      (2 ≤ landCount (draw (deck_to_list d) hand_size) ∧
        landCount (draw (deck_to_list d) hand_size) ≤ 5) := by
  unfold simulate_hand
  rw [if_neg (by omega)]
  simp

/-- Witness for `simulate_hand_keepable_iff`: a 7-card deck with 3 Forests
drawn by a take-first oracle. -/
theorem simulate_hand_keepable_iff_witness :
    simulate_hand ⟨"W", [("Forest", 3), ("Bear", 4)]⟩ 7 (fun l n => l.take n) = true ↔
      (2 ≤ landCount ((fun (l : List String) (n : ℕ) => l.take n)
            (deck_to_list ⟨"W", [("Forest", 3), ("Bear", 4)]⟩) 7) ∧
        landCount ((fun (l : List String) (n : ℕ) => l.take n)
            (deck_to_list ⟨"W", [("Forest", 3), ("Bear", 4)]⟩) 7) ≤ 5) :=
  simulate_hand_keepable_iff ⟨"W", [("Forest", 3), ("Bear", 4)]⟩ 7
    (fun l n => l.take n) (by decide)

theorem sum_values_eq_flatten_length (l : List (String × ℤ))
    (h : ∀ p ∈ l, 1 ≤ p.2) :
    (l.map (fun p => p.2)).sum =
      (((l.map (fun p => List.replicate p.2.toNat p.1)).flatten.length : ℕ) : ℤ) := by
  induction l with
  | nil => simp
  | cons p t ih =>
      simp only [List.map_cons, List.sum_cons, List.flatten_cons, List.length_append,
        List.length_replicate]
      have h1 := h p (List.mem_cons_self _ _)
      have h2 := ih (fun q hq => h q (List.mem_cons_of_mem _ hq))
      omega

theorem total_cards_eq_length {d : Deck} (hinv : DeckInv d) :
    d.total_cards = ((deck_to_list d).length : ℤ) := by
  unfold Deck.total_cards deck_to_list
  exact sum_values_eq_flatten_length d.cards hinv

/-- C4: for every deck satisfying the quantity invariant whose total card
count is smaller than the hand size, the hand simulator returns `false`
deterministically — for every sampling oracle. -/
theorem simulate_hand_short_deck_false (d : Deck) (hand_size : ℕ)
    (draw : List String → ℕ → List String)
    (hinv : DeckInv d) (hlt : d.total_cards < (hand_size : ℤ)) :
    simulate_hand d hand_size draw = false := by
  unfold simulate_hand
  rw [total_cards_eq_length hinv] at hlt
  rw [if_pos (by omega)]

/-- Witness for `simulate_hand_short_deck_false`: a 2-card deck cannot
produce a 7-card hand. -/
theorem simulate_hand_short_deck_false_witness :
    simulate_hand ⟨"W", [("Ageless Guardian", 2)]⟩ 7 (fun l n => l.take n) = false :=
  simulate_hand_short_deck_false ⟨"W", [("Ageless Guardian", 2)]⟩ 7
    (fun l n => l.take n) (by decide) (by decide)

theorem matchStep_sum (d1 d2 : Deck)
    (draws1 draws2 : ℕ → List String → ℕ → List String)
    (acc : ℕ × ℕ × ℕ) (i : ℕ) :
    (matchStep d1 d2 draws1 draws2 acc i).1 +
      (matchStep d1 d2 draws1 draws2 acc i).2.1 +
      (matchStep d1 d2 draws1 draws2 acc i).2.2 =
      acc.1 + acc.2.1 + acc.2.2 + 1 := by
  unfold matchStep
  dsimp only
  split_ifs <;> (dsimp only; omega)

theorem matchLoop_sum (d1 d2 : Deck)
    (draws1 draws2 : ℕ → List String → ℕ → List String) :
    ∀ (l : List ℕ) (acc : ℕ × ℕ × ℕ),
      (l.foldl (matchStep d1 d2 draws1 draws2) acc).1 +
        (l.foldl (matchStep d1 d2 draws1 draws2) acc).2.1 +
        (l.foldl (matchStep d1 d2 draws1 draws2) acc).2.2 =
        acc.1 + acc.2.1 + acc.2.2 + l.length := by
  intro l
  induction l with
  | nil => intro acc; simp
  | cons i t ih =>
      intro acc
      simp only [List.foldl_cons, List.length_cons]
      rw [ih (matchStep d1 d2 draws1 draws2 acc i), matchStep_sum]
      omega

/-- C5: for every pair of decks, every pair of per-iteration sampling
oracles and every iteration count, the match simulator's three counters sum
to the iteration count exactly; each iteration increments exactly one
counter — deck 1 when only its hand is keepable, deck 2 when only its hand
is keepable, the tie counter otherwise. -/
theorem simulate_match_counts (d1 d2 : Deck)
    (draws1 draws2 : ℕ → List String → ℕ → List String) (iterations : ℕ) :
    ((simulate_match d1 d2 draws1 draws2 iterations).1 +
      (simulate_match d1 d2 draws1 draws2 iterations).2.1 +
      (simulate_match d1 d2 draws1 draws2 iterations).2.2 = iterations) ∧
    (∀ (acc : ℕ × ℕ × ℕ) (i : ℕ),
      matchStep d1 d2 draws1 draws2 acc i =
        if simulate_hand d1 7 (draws1 i) = true ∧
            simulate_hand d2 7 (draws2 i) = false then
          (acc.1 + 1, acc.2.1, acc.2.2)
        else if simulate_hand d2 7 (draws2 i) = true ∧
            simulate_hand d1 7 (draws1 i) = false then
          (acc.1, acc.2.1 + 1, acc.2.2)
        else (acc.1, acc.2.1, acc.2.2 + 1)) := by
  constructor
  · unfold simulate_match
    rw [matchLoop_sum]
    simp
  · intro acc i
    unfold matchStep
    rcases h1 : simulate_hand d1 7 (draws1 i) <;>
      rcases h2 : simulate_hand d2 7 (draws2 i) <;> simp

theorem add_card_name (d : Deck) (n : String) (q : ℤ) :
    (d.add_card n q).name = d.name := rfl

theorem landLoop_name (per extra : ℕ) :
    ∀ (colors : List String) (deck : Deck) (idx : ℕ),
      (landLoop per extra deck colors idx).name = deck.name := by
  intro colors
  induction colors with
  | nil => intro deck idx; rfl
  | cons col rest ih =>
      intro deck idx
      rw [landLoop, ih, add_card_name]

theorem acquireLoop_name (target : ℕ) :
    ∀ (cards : List CardM) (deck : Deck) (used : List String) (added : ℕ),
      (acquireLoop target deck used added cards).1.name = deck.name := by
  intro cards
  induction cards with
  | nil => intro deck used added; rfl
  | cons c rest ih =>
      intro deck used added
      rw [acquireLoop]
      by_cases h1 : target ≤ added
      · rw [if_pos h1]
      · rw [if_neg h1]
        by_cases h2 : used.contains c.name = true
        · rw [if_pos h2, ih]
        · rw [if_neg h2, ih, add_card_name]

theorem fillerLoop_name :
    ∀ (cards : List CardM) (deck : Deck) (used : List String) (fill_needed : ℕ),
      (fillerLoop deck used fill_needed cards).name = deck.name := by
  intro cards
  induction cards with
  | nil => intro deck used fill_needed; rfl
  | cons c rest ih =>
      intro deck used fill_needed
      rw [fillerLoop]
      by_cases h1 : used.contains c.name = true
      · rw [if_pos h1, ih]
      · rw [if_neg h1]
        dsimp only
        by_cases h2 : fill_needed - 1 = 0
        · rw [if_pos h2, add_card_name]
        · rw [if_neg h2, ih, add_card_name]

theorem smartBuild_name (colors : List String) (archetype : String)
    (creaturesRaw noncreRaw filler : List CardM) :
    (smartBuild colors archetype creaturesRaw noncreRaw filler).name =
      deckName archetype colors := by
  unfold smartBuild
  dsimp only
  split
  · rw [fillerLoop_name, acquireLoop_name, acquireLoop_name, landPhase,
      landLoop_name]
  · rw [acquireLoop_name, acquireLoop_name, landPhase, landLoop_name]

/-- C7: the auto-built deck is named `"<Archetype-capitalized> <colors
joined by slashes> Auto"` for each of the three archetypes and every
ordered color list; in particular "control" with colors U, B yields exactly
"Control U/B Auto". -/
theorem smartBuild_deck_name (colors : List String)
    (creaturesRaw noncreRaw filler : List CardM) :
    ((smartBuild colors "aggro" creaturesRaw noncreRaw filler).name =
        "Aggro " ++ String.intercalate "/" colors ++ " Auto") ∧
    ((smartBuild colors "midrange" creaturesRaw noncreRaw filler).name =
        "Midrange " ++ String.intercalate "/" colors ++ " Auto") ∧
    ((smartBuild colors "control" creaturesRaw noncreRaw filler).name =
        "Control " ++ String.intercalate "/" colors ++ " Auto") ∧
    ((smartBuild ["U", "B"] "control" creaturesRaw noncreRaw filler).name =
        "Control U/B Auto") := by
  refine ⟨?_, ?_, ?_, ?_⟩ <;> rw [smartBuild_name] <;> unfold deckName
  · have h : pyCapitalize "aggro" = "Aggro" := by decide
    rw [h]
    have h2 : "Aggro" ++ " " = "Aggro " := rfl
    rw [h2]
  · have h : pyCapitalize "midrange" = "Midrange" := by decide
    rw [h]
    have h2 : "Midrange" ++ " " = "Midrange " := rfl
    rw [h2]
  · have h : pyCapitalize "control" = "Control" := by decide
    rw [h]
    have h2 : "Control" ++ " " = "Control " := rfl
    rw [h2]
  · decide

theorem landLoop_cards_nm (per extra : ℕ) :
    ∀ (colors : List String) (idx : ℕ) (nm nm' : String)
      (cs : List (String × ℤ)),
      (landLoop per extra ⟨nm, cs⟩ colors idx).cards =
        (landLoop per extra ⟨nm', cs⟩ colors idx).cards := by
  intro colors
  induction colors with
  | nil => intro idx nm nm' cs; rfl
  | cons col rest ih =>
      intro idx nm nm' cs
      rw [landLoop, landLoop]
      exact ih (idx + 1) nm nm' _

/-- C2: for 1–3 distinct chosen colors the land phase allocates exactly 24
basic lands, `24 / N` per color plus one extra for each of the first
`24 % N` colors in user order, under the map W→Plains, U→Island, B→Swamp,
R→Mountain, G→Forest; in particular R,G yields 12 Mountain + 12 Forest and
W,U,B yields 8/8/8. -/
theorem landPhase_allocation (nm : String) (colors : List String)
    (h1 : 1 ≤ colors.length) (h3 : colors.length ≤ 3)
    (hmem : ∀ c ∈ colors, c ∈ ["W", "U", "B", "R", "G"])
    (hnd : colors.Nodup) :
    (basic_map "W" = "Plains" ∧ basic_map "U" = "Island" ∧
      basic_map "B" = "Swamp" ∧ basic_map "R" = "Mountain" ∧
      basic_map "G" = "Forest") ∧
    (landPhase colors ⟨nm, []⟩).total_cards = 24 ∧
    (∀ (i : ℕ) (hi : i < colors.length),
      dictGet? (landPhase colors ⟨nm, []⟩).cards
          (basic_map (colors.get ⟨i, hi⟩)) =
        some ((24 / colors.length +
          if i < 24 % colors.length then 1 else 0 : ℕ) : ℤ)) ∧
    (landPhase ["R", "G"] ⟨nm, []⟩).cards = [("Mountain", 12), ("Forest", 12)] ∧
    (landPhase ["W", "U", "B"] ⟨nm, []⟩).cards =
      [("Plains", 8), ("Island", 8), ("Swamp", 8)] := by
  have hg : ∀ (cols : List String),
      (landPhase cols ⟨nm, []⟩).cards = (landPhase cols ⟨"", []⟩).cards :=
    fun cols => landLoop_cards_nm _ _ cols 0 nm "" []
  have ht : (landPhase colors ⟨nm, []⟩).total_cards =
      (landPhase colors ⟨"", []⟩).total_cards := by
    unfold Deck.total_cards; rw [hg]
  rw [ht]
  simp only [hg]
  rcases colors with _ | ⟨a, _ | ⟨b, _ | ⟨c, _ | ⟨d, t⟩⟩⟩⟩
  · simp at h1
  · have ha := hmem a (by simp)
    fin_cases ha <;> revert hnd <;> decide
  · have ha := hmem a (by simp)
    have hb := hmem b (by simp)
    fin_cases ha <;> fin_cases hb <;> revert hnd <;> decide
  · have ha := hmem a (by simp)
    have hb := hmem b (by simp)
    have hc := hmem c (by simp)
    fin_cases ha <;> fin_cases hb <;> fin_cases hc <;> revert hnd <;> decide
  · simp at h3

/-- Witness for `landPhase_allocation` at colors W, U, B. -/
theorem landPhase_allocation_witness :
    (basic_map "W" = "Plains" ∧ basic_map "U" = "Island" ∧
      basic_map "B" = "Swamp" ∧ basic_map "R" = "Mountain" ∧
      basic_map "G" = "Forest") ∧
    (landPhase ["W", "U", "B"] ⟨"X", []⟩).total_cards = 24 ∧
    (∀ (i : ℕ) (hi : i < (["W", "U", "B"] : List String).length),
      dictGet? (landPhase ["W", "U", "B"] ⟨"X", []⟩).cards
          (basic_map ((["W", "U", "B"] : List String).get ⟨i, hi⟩)) =
        some ((24 / (["W", "U", "B"] : List String).length +
          if i < 24 % (["W", "U", "B"] : List String).length then 1
          else 0 : ℕ) : ℤ)) ∧
    (landPhase ["R", "G"] ⟨"X", []⟩).cards =
      [("Mountain", 12), ("Forest", 12)] ∧
    (landPhase ["W", "U", "B"] ⟨"X", []⟩).cards =
      [("Plains", 8), ("Island", 8), ("Swamp", 8)] :=
  landPhase_allocation "X" ["W", "U", "B"] (by decide) (by decide)
    (by decide) (by decide)

theorem dictSet_sum_add (l : List (String × ℤ)) (k : String) (q : ℤ) :
    ((dictSet l k (dictGetD l k 0 + q)).map (fun p => p.2)).sum =
      (l.map (fun p => p.2)).sum + q := by
  induction l with
  | nil => simp [dictSet, dictGetD, dictGet?]
  | cons p t ih =>
      obtain ⟨k', v'⟩ := p
      by_cases h : (k' == k) = true
      · simp only [dictSet, dictGetD, dictGet?, List.find?, h, if_pos,
          List.map_cons, List.sum_cons]
        simp only [Option.map_some', Option.getD_some]
        ring
      · simp only [dictSet, dictGetD, dictGet?, List.find?, h,
          Bool.false_eq_true, if_false, List.map_cons, List.sum_cons]
        simp only [dictGetD, dictGet?] at ih
        rw [ih]
        ring

theorem total_add_card (d : Deck) (n : String) (q : ℤ) :
    (d.add_card n q).total_cards = d.total_cards + q := by
  unfold Deck.add_card Deck.total_cards
  exact dictSet_sum_add d.cards n q

theorem acquireLoop_total (target : ℕ) :
    ∀ (cards : List CardM) (deck : Deck) (used : List String) (added : ℕ),
      (acquireLoop target deck used added cards).1.total_cards ≤
        deck.total_cards + ((target - added : ℕ) : ℤ) := by
  intro cards
  induction cards with
  | nil => intro deck used added; simp [acquireLoop]
  | cons c rest ih =>
      intro deck used added
      rw [acquireLoop]
      by_cases h1 : target ≤ added
      · rw [if_pos h1]; simp
      · rw [if_neg h1]
        by_cases h2 : used.contains c.name = true
        · rw [if_pos h2]
          exact ih deck used added
        · rw [if_neg h2]
          have := ih (deck.add_card c.name 1) (c.name :: used) (added + 1)
          rw [total_add_card] at this
          omega

theorem fillerLoop_total :
    ∀ (cards : List CardM) (deck : Deck) (used : List String) (fn : ℕ),
      1 ≤ fn →
      (fillerLoop deck used fn cards).total_cards ≤
        deck.total_cards + (fn : ℤ) := by
  intro cards
  induction cards with
  | nil => intro deck used fn _; simp [fillerLoop]
  | cons c rest ih =>
      intro deck used fn hfn
      rw [fillerLoop]
      by_cases h1 : used.contains c.name = true
      · rw [if_pos h1]
        exact ih deck used fn hfn
      · rw [if_neg h1]
        dsimp only
        by_cases h2 : fn - 1 = 0
        · rw [if_pos h2, total_add_card]
          omega
        · rw [if_neg h2]
          have := ih (deck.add_card c.name 1) (c.name :: used) (fn - 1) (by omega)
          rw [total_add_card] at this
          omega

theorem landPhase_total_of_len (colors : List String) (deck : Deck)
    (h1 : 1 ≤ colors.length) (h3 : colors.length ≤ 3) :
    (landPhase colors deck).total_cards = deck.total_cards + 24 := by
  rcases colors with _ | ⟨a, _ | ⟨b, _ | ⟨c, _ | ⟨d, t⟩⟩⟩⟩
  · simp at h1
  · simp only [landPhase, landLoop, List.length_cons, List.length_nil]
    norm_num
    rw [total_add_card]
  · simp only [landPhase, landLoop, List.length_cons, List.length_nil]
    norm_num
    rw [total_add_card, total_add_card]
    omega
  · simp only [landPhase, landLoop, List.length_cons, List.length_nil]
    norm_num
    rw [total_add_card, total_add_card, total_add_card]
    omega
  · simp at h3

/-- C10: for every catalog response triple (including empty, short or
overlapping candidate lists) and 1–3 chosen colors, the auto-built deck
holds at most 60 card units: lands contribute 24, the two acquisition
phases at most their targets (which always sum to 36), and the filler stops
at 60 exactly. -/
theorem smartBuild_total_le_60 (colors : List String) (archetype : String)
    (creaturesRaw noncreRaw filler : List CardM)
    (h1 : 1 ≤ colors.length) (h3 : colors.length ≤ 3) :
    (smartBuild colors archetype creaturesRaw noncreRaw filler).total_cards ≤ 60 := by
  unfold smartBuild
  dsimp only
  set deck1 := landPhase colors ⟨deckName archetype colors, []⟩ with hdeck1
  set creatures := creaturesRaw.filter (fun c => colorsSubset c colors) with hcrel
  set step2 := acquireLoop (archTargets archetype).1 deck1 [] 0 creatures with hstep2
  set noncre := noncreRaw.filter (fun c => colorsSubset c colors) with hnonl
  set step3 := acquireLoop (archTargets archetype).2 step2.1 step2.2.1 0 noncre with hstep3
  have hts : (archTargets archetype).1 + (archTargets archetype).2 = 36 := by
    unfold archTargets; split_ifs <;> rfl
  have hland : deck1.total_cards = 24 := by
    rw [hdeck1, landPhase_total_of_len _ _ h1 h3]
    simp [Deck.total_cards]
  have h2 := acquireLoop_total (archTargets archetype).1 creatures deck1 [] 0
  rw [← hstep2] at h2
  simp only [Nat.sub_zero] at h2
  have h3b := acquireLoop_total (archTargets archetype).2 noncre step2.1 step2.2.1 0
  rw [← hstep3] at h3b
  simp only [Nat.sub_zero] at h3b
  split
  · rename_i hlt
    have hfill := fillerLoop_total filler step3.1 step3.2.1
      (60 - step3.1.total_cards).toNat (by omega)
    omega
  · rename_i hge
    omega

/-- Witness for `smartBuild_total_le_60` with one color and empty catalog
responses. -/
theorem smartBuild_total_le_60_witness :
    (smartBuild ["G"] "aggro" [] [] []).total_cards ≤ 60 :=
  smartBuild_total_le_60 ["G"] "aggro" [] [] [] (by decide) (by decide)

theorem dictGet?_set_ne {α : Type} (l : List (String × α)) (k m : String)
    (v : α) (h : m ≠ k) : dictGet? (dictSet l k v) m = dictGet? l m := by
  induction l with
  | nil =>
      simp only [dictSet, dictGet?, List.find?]
      have hb : (k == m) = false := by
        simp only [beq_eq_false_iff_ne]
        exact fun he => h he.symm
      simp [hb]
  | cons p t ih =>
      obtain ⟨k', v'⟩ := p
      simp only [dictSet]
      by_cases hk : (k' == k) = true
      · rw [if_pos hk]
        have hk' : k' = k := by simpa using hk
        have hb : (k' == m) = false := by
          simp only [beq_eq_false_iff_ne]
          exact fun he => h (hk' ▸ he).symm
        simp [dictGet?, List.find?, hb]
      · rw [if_neg hk]
        by_cases hm : (k' == m) = true
        · simp [dictGet?, List.find?, hm]
        · simp only [dictGet?, List.find?] at ih ⊢
          simp only [hm, Bool.false_eq_true, if_false]
          exact ih

theorem dictGet?_add_card (d : Deck) (k : String) (q : ℤ) (m : String) :
    dictGet? (d.add_card k q).cards m =
      if m = k then some (dictGetD d.cards k 0 + q) else dictGet? d.cards m := by
  unfold Deck.add_card
  by_cases h : m = k
  · rw [if_pos h, h]
    exact dictGet?_set_self d.cards k _
  · rw [if_neg h]
    exact dictGet?_set_ne d.cards k m _ h

theorem landLoop_getn (n : String) (per extra : ℕ) :
    ∀ (cols : List String) (deck : Deck) (idx : ℕ),
      n ∉ cols.map basic_map →
      dictGet? deck.cards n = none →
      dictGet? (landLoop per extra deck cols idx).cards n = none := by
  intro cols
  induction cols with
  | nil => intro deck idx _ h0; exact h0
  | cons col rest ih =>
      intro deck idx hn h0
      simp only [List.map_cons, List.mem_cons, not_or] at hn
      rw [landLoop]
      apply ih _ (idx + 1)
      · exact hn.2
      · rw [dictGet?_add_card, if_neg hn.1]
        exact h0

/-- The shared-used-set invariant for one card name `n`: either `n` is not
in the deck and not in the used set, or it was added exactly once and is in
the used set. -/
def UsedInv (n : String) (deck : Deck) (used : List String) : Prop :=
  (dictGet? deck.cards n = none ∧ used.contains n = false) ∨
    (dictGet? deck.cards n = some 1 ∧ used.contains n = true)

theorem contains_cons_preserve (n c : String) (used : List String) :
    (used.contains n = false → c ≠ n → (c :: used).contains n = false) ∧
    (used.contains n = true → (c :: used).contains n = true) := by
  constructor
  · intro h hne
    simp only [List.contains_cons, Bool.or_eq_false_iff]
    refine ⟨?_, h⟩
    simp only [beq_eq_false_iff_ne]
    exact fun he => hne he.symm
  · intro h
    simp only [List.contains_cons, h, Bool.or_true]

theorem acquireLoop_getn (n : String) (target : ℕ) :
    ∀ (cards : List CardM) (deck : Deck) (used : List String) (added : ℕ),
      UsedInv n deck used →
      UsedInv n (acquireLoop target deck used added cards).1
        (acquireLoop target deck used added cards).2.1 := by
  intro cards
  induction cards with
  | nil => intro deck used added h; exact h
  | cons c rest ih =>
      intro deck used added h
      rw [acquireLoop]
      by_cases h1 : target ≤ added
      · rw [if_pos h1]; exact h
      · rw [if_neg h1]
        by_cases h2 : used.contains c.name = true
        · rw [if_pos h2]
          exact ih deck used added h
        · rw [if_neg h2]
          apply ih
          by_cases hc : c.name = n
          · subst hc
            rcases h with ⟨hd, hu⟩ | ⟨hd, hu⟩
            · right
              constructor
              · rw [dictGet?_add_card, if_pos rfl]
                unfold dictGetD
                rw [hd]
                rfl
              · simp [List.contains_cons]
            · rw [hu] at h2; exact absurd rfl h2
          · rcases h with ⟨hd, hu⟩ | ⟨hd, hu⟩
            · left
              refine ⟨?_, (contains_cons_preserve n c.name used).1 hu hc⟩
              rw [dictGet?_add_card, if_neg (fun he => hc he.symm)]
              exact hd
            · right
              refine ⟨?_, (contains_cons_preserve n c.name used).2 hu⟩
              rw [dictGet?_add_card, if_neg (fun he => hc he.symm)]
              exact hd

theorem fillerLoop_getn (n : String) :
    ∀ (cards : List CardM) (deck : Deck) (used : List String) (fn : ℕ),
      UsedInv n deck used →
      dictGet? (fillerLoop deck used fn cards).cards n = none ∨
        dictGet? (fillerLoop deck used fn cards).cards n = some 1 := by
  intro cards
  induction cards with
  | nil =>
      intro deck used fn h
      rcases h with ⟨hd, _⟩ | ⟨hd, _⟩
      · exact Or.inl hd
      · exact Or.inr hd
  | cons c rest ih =>
      intro deck used fn h
      rw [fillerLoop]
      by_cases h1 : used.contains c.name = true
      · rw [if_pos h1]
        exact ih deck used fn h
      · rw [if_neg h1]
        dsimp only
        have hstep : UsedInv n (deck.add_card c.name 1) (c.name :: used) := by
          by_cases hc : c.name = n
          · subst hc
            rcases h with ⟨hd, hu⟩ | ⟨hd, hu⟩
            · right
              constructor
              · rw [dictGet?_add_card, if_pos rfl]
                unfold dictGetD
                rw [hd]
                rfl
              · simp [List.contains_cons]
            · rw [hu] at h1; exact absurd rfl h1
          · rcases h with ⟨hd, hu⟩ | ⟨hd, hu⟩
            · left
              refine ⟨?_, (contains_cons_preserve n c.name used).1 hu hc⟩
              rw [dictGet?_add_card, if_neg (fun he => hc he.symm)]
              exact hd
            · right
              refine ⟨?_, (contains_cons_preserve n c.name used).2 hu⟩
              rw [dictGet?_add_card, if_neg (fun he => hc he.symm)]
              exact hd
        by_cases h2 : fn - 1 = 0
        · rw [if_pos h2]
          rcases hstep with ⟨hd, _⟩ | ⟨hd, _⟩
          · exact Or.inl hd
          · exact Or.inr hd
        · rw [if_neg h2]
          exact ih _ _ _ hstep

/-- CORRECTED C1.  The code initialises the `used` set *after* the land
phase, so basic-land names are not in it: a creature-query candidate named
"Forest" is added on top of the 24 Forests the land phase produced, raising
that entry to 25.  This closed computation exhibits it. -/
theorem smartBuild_land_requeued_counterexample :
    dictGet? (landPhase ["G"] ⟨deckName "aggro" ["G"], []⟩).cards "Forest" =
      some 24 ∧
    dictGet? (smartBuild ["G"] "aggro" [⟨"Forest", ["G"]⟩] [] []).cards
      "Forest" = some 25 := by
  decide

/-- C1 (amended): the used-name set is shared across the creature,
noncreature and filler acquisition phases, so any name that is not one of
the basic lands allocated by the land phase ends up with quantity exactly 1
if it is in the deck at all; basic-land names, however, are *not* protected,
since the used set starts empty after the land phase. -/
theorem smartBuild_nonland_added_once (colors : List String)
    (archetype : String) (creaturesRaw noncreRaw filler : List CardM)
    (n : String) (hn : n ∉ colors.map basic_map) :
    dictGet? (smartBuild colors archetype creaturesRaw noncreRaw filler).cards
        n = none ∨
    dictGet? (smartBuild colors archetype creaturesRaw noncreRaw filler).cards
        n = some 1 := by
  unfold smartBuild
  dsimp only
  have hQ1 : dictGet?
      (landPhase colors ⟨deckName archetype colors, []⟩).cards n = none := by
    unfold landPhase
    apply landLoop_getn n _ _ colors _ 0 hn
    rfl
  have hQ2 := acquireLoop_getn n (archTargets archetype).1
    (creaturesRaw.filter (fun c => colorsSubset c colors))
    (landPhase colors ⟨deckName archetype colors, []⟩) [] 0
    (Or.inl ⟨hQ1, rfl⟩)
  have hQ3 := acquireLoop_getn n (archTargets archetype).2
    (noncreRaw.filter (fun c => colorsSubset c colors)) _ _ 0 hQ2
  split
  · exact fillerLoop_getn n filler _ _ _ hQ3
  · rcases hQ3 with ⟨hd, _⟩ | ⟨hd, _⟩
    · exact Or.inl hd
    · exact Or.inr hd

/-- Witness for `smartBuild_nonland_added_once`: the same creature offered
by both the creature and the noncreature catalog response is added only
once. -/
theorem smartBuild_nonland_added_once_witness :
    dictGet? (smartBuild ["G"] "aggro" [⟨"Grizzly Bears", ["G"]⟩]
        [⟨"Grizzly Bears", ["G"]⟩] []).cards "Grizzly Bears" = none ∨
    dictGet? (smartBuild ["G"] "aggro" [⟨"Grizzly Bears", ["G"]⟩]
        [⟨"Grizzly Bears", ["G"]⟩] []).cards "Grizzly Bears" = some 1 :=
  smartBuild_nonland_added_once ["G"] "aggro" [⟨"Grizzly Bears", ["G"]⟩]
    [⟨"Grizzly Bears", ["G"]⟩] [] "Grizzly Bears" (by decide)

theorem archStats_aux (combo arch : String) :
    ∀ (history : List MatchRecord) (t w : ℕ),
      history.foldl
        (fun acc r =>
          if recMatches combo arch r then
            if r.result = "W" then (acc.1 + 1, acc.2 + 1)
            else if r.result = "L" then (acc.1 + 1, acc.2)
            else acc
          else acc)
        (t, w) =
      (t + specWins history combo arch + specLosses history combo arch,
        w + specWins history combo arch) := by
  intro history
  induction history with
  | nil => intro t w; simp [specWins, specLosses]
  | cons r rest ih =>
      intro t w
      simp only [List.foldl_cons]
      by_cases hm : recMatches combo arch r = true
      · by_cases hw : r.result = "W"
        · have hl : ¬ r.result = "L" := by rw [hw]; decide
          rw [if_pos hm, if_pos hw, ih (t + 1) (w + 1)]
          have e1 : specWins (r :: rest) combo arch =
              specWins rest combo arch + 1 := by
            simp [specWins, List.filter_cons, hm, hw]
          have e2 : specLosses (r :: rest) combo arch =
              specLosses rest combo arch := by
            simp [specLosses, List.filter_cons, hm, hw]
          rw [e1, e2]
          congr 1 <;> omega
        · by_cases hl : r.result = "L"
          · rw [if_pos hm, if_neg hw, if_pos hl, ih (t + 1) w]
            have e1 : specWins (r :: rest) combo arch =
                specWins rest combo arch := by
              simp [specWins, List.filter_cons, hm, hl]
            have e2 : specLosses (r :: rest) combo arch =
                specLosses rest combo arch + 1 := by
              simp [specLosses, List.filter_cons, hm, hl]
            rw [e1, e2]
            congr 1
            omega
          · rw [if_pos hm, if_neg hw, if_neg hl, ih t w]
            have e1 : specWins (r :: rest) combo arch =
                specWins rest combo arch := by
              simp [specWins, List.filter_cons, hm, hw]
            have e2 : specLosses (r :: rest) combo arch =
                specLosses rest combo arch := by
              simp [specLosses, List.filter_cons, hm, hl]
            rw [e1, e2]
      · rw [if_neg hm, ih t w]
        have hmf : recMatches combo arch r = false := by
          rcases Bool.eq_false_or_eq_true (recMatches combo arch r) with h | h
          · exact absurd h hm
          · exact h
        have e1 : specWins (r :: rest) combo arch =
            specWins rest combo arch := by
          simp [specWins, List.filter_cons, hmf]
        have e2 : specLosses (r :: rest) combo arch =
            specLosses rest combo arch := by
          simp [specLosses, List.filter_cons, hmf]
        rw [e1, e2]

theorem archStats_eq (history : List MatchRecord) (combo arch : String) :
    archStats history combo arch =
      (specWins history combo arch + specLosses history combo arch,
        specWins history combo arch) := by
  unfold archStats
  rw [archStats_aux combo arch history 0 0]
  simp

theorem rateOf_eq_specRate (history : List MatchRecord) (combo arch : String) :
    rateOf history combo arch = specRate history combo arch := by
  unfold rateOf specRate
  rw [archStats_eq]

theorem rateOf_nonneg (history : List MatchRecord) (combo arch : String)
    (r : ℚ) (h : rateOf history combo arch = some r) : 0 ≤ r := by
  unfold rateOf at h
  dsimp only at h
  split_ifs at h with h1
  have h2 : ((archStats history combo arch).2 : ℚ) /
      ((archStats history combo arch).1 : ℚ) = r := by
    injection h
  rw [← h2]
  positivity

theorem recommendStep_eq (history : List MatchRecord) (combo arch : String)
    (best : Option String × ℚ) :
    (if 0 < (archStats history combo arch).1 then
       if best.2 < ((archStats history combo arch).2 : ℚ) /
           ((archStats history combo arch).1 : ℚ) then
         (some arch,
           ((archStats history combo arch).2 : ℚ) /
             ((archStats history combo arch).1 : ℚ))
       else best
     else best) =
    (match rateOf history combo arch with
     | none => best
     | some r => if best.2 < r then (some arch, r) else best) := by
  unfold rateOf
  dsimp only
  by_cases h : 0 < (archStats history combo arch).1
  · simp [h]
  · simp [h]

/-- C6: the archetype recommender of `_on_smart_build` is exactly the
first-seen argmax over the fixed order Aggro, Midrange, Control of the
spec-level score wins / (wins + losses): the strictly highest rate wins,
and an exact tie goes to the archetype evaluated earlier (strict
greater-than comparison). -/
theorem recommend_eq_specRecommend (history : List MatchRecord)
    (combo : String) :
    recommend history combo = specRecommend history combo := by
  have hA := rateOf_eq_specRate history combo "Aggro"
  have hM := rateOf_eq_specRate history combo "Midrange"
  have hC := rateOf_eq_specRate history combo "Control"
  unfold recommend specRecommend archetypes
  simp only [List.foldl_cons, List.foldl_nil, List.filterMap_cons,
    List.filterMap_nil, recommendStep_eq]
  rw [← hA, ← hM, ← hC]
  rcases hra : rateOf history combo "Aggro" with _ | rA <;>
    rcases hrm : rateOf history combo "Midrange" with _ | rM <;>
      rcases hrc : rateOf history combo "Control" with _ | rC
  · simp
  · have h0C := rateOf_nonneg history combo "Control" rC hrc
    have h1C : (-1 : ℚ) < rC := by linarith
    simp [List.find?_cons, List.all_cons, h1C]
  · have h0M := rateOf_nonneg history combo "Midrange" rM hrm
    have h1M : (-1 : ℚ) < rM := by linarith
    simp [List.find?_cons, List.all_cons, h1M]
  · have h0M := rateOf_nonneg history combo "Midrange" rM hrm
    have h1M : (-1 : ℚ) < rM := by linarith
    rcases le_or_lt rC rM with hCM | hMC
    · simp [List.find?_cons, List.all_cons, h1M, hCM, not_lt.mpr hCM]
    · simp [List.find?_cons, List.all_cons, h1M, hMC, le_of_lt hMC,
        not_le.mpr hMC]
  · have h0A := rateOf_nonneg history combo "Aggro" rA hra
    have h1A : (-1 : ℚ) < rA := by linarith
    simp [List.find?_cons, List.all_cons, h1A]
  · have h0A := rateOf_nonneg history combo "Aggro" rA hra
    have h1A : (-1 : ℚ) < rA := by linarith
    rcases le_or_lt rC rA with hCA | hAC
    · simp [List.find?_cons, List.all_cons, h1A, hCA, not_lt.mpr hCA]
    · simp [List.find?_cons, List.all_cons, h1A, hAC, le_of_lt hAC,
        not_le.mpr hAC]
  · have h0A := rateOf_nonneg history combo "Aggro" rA hra
    have h1A : (-1 : ℚ) < rA := by linarith
    rcases le_or_lt rM rA with hMA | hAM
    · simp [List.find?_cons, List.all_cons, h1A, hMA, not_lt.mpr hMA]
    · simp [List.find?_cons, List.all_cons, h1A, hAM, le_of_lt hAM,
        not_le.mpr hAM]
  · have h0A := rateOf_nonneg history combo "Aggro" rA hra
    have h1A : (-1 : ℚ) < rA := by linarith
    rcases le_or_lt rM rA with hMA | hAM
    · rcases le_or_lt rC rA with hCA | hAC
      · simp [List.find?_cons, List.all_cons, h1A, hMA, hCA,
          not_lt.mpr hMA, not_lt.mpr hCA]
      · have hCMn : ¬ rC ≤ rM := not_le.mpr (lt_of_le_of_lt hMA hAC)
        simp [List.find?_cons, List.all_cons, h1A, hMA, not_lt.mpr hMA,
          hAC, le_of_lt hAC, not_le.mpr hAC, hCMn,
          le_trans hMA (le_of_lt hAC)]
    · rcases le_or_lt rC rM with hCM | hMC
      · simp [List.find?_cons, List.all_cons, h1A, hAM, le_of_lt hAM,
          not_le.mpr hAM, hCM, not_lt.mpr hCM]
      · have hACl : rA ≤ rC := le_of_lt (lt_trans hAM hMC)
        simp [List.find?_cons, List.all_cons, h1A, hAM, le_of_lt hAM,
          not_le.mpr hAM, hMC, le_of_lt hMC, not_le.mpr hMC, hACl]
